import Mathlib

/-!
Verification of the document ingestion pipeline (backend/services):
`document_processor.py`, `pdf_processor.py`, `vector_store.py`.

Strings are embedded as `List Char`.  Python's `str.strip()` and the regex
class `\s` are modelled over the ASCII whitespace characters
(space, tab, newline, carriage return, vertical tab, form feed); the
repository only ever feeds extracted document text through them and the
claims under verification are whitespace-generic.
-/

/-- ASCII model of Python's whitespace test (`str.strip` / regex `\s`). -/
def pyIsSpace (c : Char) : Bool :=
  c == ' ' || c == '\t' || c == '\n' || c == '\r' || c == Char.ofNat 11 || c == Char.ofNat 12

/-- Python `s.strip()`: remove leading and trailing whitespace. -/
def pyStrip (s : List Char) : List Char :=
  (((s.dropWhile pyIsSpace).reverse).dropWhile pyIsSpace).reverse

theorem dropWhile_length_le {α : Type} (p : α → Bool) (l : List α) :
    (l.dropWhile p).length ≤ l.length := by
  induction l with
  | nil => simp
  | cons a t ih =>
    rw [List.dropWhile_cons]
    split
    · exact Nat.le_succ_of_le ih
    · simp

theorem dropWhile_eq_cons_head_false {α : Type} (p : α → Bool) :
    ∀ (l : List α) (c : α) (t : List α), l.dropWhile p = c :: t → p c = false := by
  intro l
  induction l with
  | nil => intro c t h; simp [List.dropWhile] at h
  | cons a l ih =>
    intro c t h
    rw [List.dropWhile_cons] at h
    by_cases ha : p a
    · simp [ha] at h; exact ih c t h
    · simp [ha] at h; rw [← h.1]; simp [ha]

theorem mem_of_mem_dropWhile {α : Type} {p : α → Bool} {l : List α} {x : α}
    (hx : x ∈ l.dropWhile p) : x ∈ l := by
  have h := List.takeWhile_append_dropWhile (p := p) (l := l)
  rw [← h]
  exact List.mem_append_right _ hx

theorem mem_of_mem_takeWhile {α : Type} {p : α → Bool} {l : List α} {x : α}
    (hx : x ∈ l.takeWhile p) : p x = true := by
  induction l with
  | nil => simp [List.takeWhile] at hx
  | cons a l ih =>
    rw [List.takeWhile_cons] at hx
    by_cases ha : p a
    · simp [ha] at hx
      rcases hx with h | h
      · rw [h]; exact ha
      · exact ih h
    · simp [ha] at hx

theorem dropWhile_all_iff {α : Type} (p : α → Bool) (l : List α) :
    (∀ x ∈ l.dropWhile p, p x = true) ↔ ∀ x ∈ l, p x = true := by
  constructor
  · intro h x hx
    have hsplit := List.takeWhile_append_dropWhile (p := p) (l := l)
    rw [← hsplit] at hx
    rcases List.mem_append.mp hx with h1 | h2
    · exact mem_of_mem_takeWhile h1
    · exact h x h2
  · intro h x hx
    exact h x (mem_of_mem_dropWhile hx)

/-- A stripped string is empty exactly when every character is whitespace. -/
theorem pyStrip_eq_nil_iff (l : List Char) :
    pyStrip l = [] ↔ ∀ c ∈ l, pyIsSpace c = true := by
  unfold pyStrip
  rw [List.reverse_eq_nil_iff, List.dropWhile_eq_nil_iff]
  constructor
  · intro h
    rw [← dropWhile_all_iff pyIsSpace l]
    intro x hx
    exact h x (List.mem_reverse.mpr hx)
  · intro h x hx
    exact h x (mem_of_mem_dropWhile (List.mem_reverse.mp hx))

theorem pyStrip_length_le (l : List Char) : (pyStrip l).length ≤ l.length := by
  unfold pyStrip
  rw [List.length_reverse]
  calc ((l.dropWhile pyIsSpace).reverse.dropWhile pyIsSpace).length
      ≤ (l.dropWhile pyIsSpace).reverse.length := dropWhile_length_le _ _
    _ = (l.dropWhile pyIsSpace).length := List.length_reverse _
    _ ≤ l.length := dropWhile_length_le _ _

/-- A stripped string is an initial segment of the left-stripped string. -/
theorem pyStrip_append_eq (l : List Char) :
    ∃ w, pyStrip l ++ w = l.dropWhile pyIsSpace := by
  refine ⟨((l.dropWhile pyIsSpace).reverse.takeWhile pyIsSpace).reverse, ?_⟩
  unfold pyStrip
  rw [← List.reverse_append, List.takeWhile_append_dropWhile, List.reverse_reverse]

/-- The first character of a non-empty stripped string is not whitespace. -/
theorem pyStrip_head_not_space (l : List Char) (c : Char) (t : List Char)
    (h : pyStrip l = c :: t) : pyIsSpace c = false := by
  obtain ⟨w, hw⟩ := pyStrip_append_eq l
  rw [h] at hw
  exact dropWhile_eq_cons_head_false pyIsSpace l c (t ++ w) hw.symm

/-- Python `re.sub(r"\s+", " ", s)`: collapse every maximal whitespace run
to a single space. -/
def collapseWs : List Char → List Char
  | [] => []
  | c :: rest =>
    if pyIsSpace c then ' ' :: collapseWs (rest.dropWhile pyIsSpace)
    else c :: collapseWs rest
termination_by l => l.length
decreasing_by
  · exact Nat.lt_succ_of_le (dropWhile_length_le pyIsSpace rest)
  · simp

/-- Model of `re.sub(r"\s+", " ", raw).strip()` — the normalisation applied by both
orchestrators before chunking. -/
def normalizeWs (raw : List Char) : List Char :=
  pyStrip (collapseWs raw)

/-- Python slice `text[start : start + chunkSize]`. -/
def window (text : List Char) (chunkSize start : Nat) : List Char :=
  (text.drop start).take chunkSize

namespace DocumentProcessor

/-- The `while start < len(text)` loop of
`document_processor._split_into_chunks` (lines 74–85).  `step` is
`chunk_size - overlap`; the Python loop diverges when `step ≤ 0`, which the
total embedding maps to `[]` behind the `0 < step` guard (every claim about
the chunker carries the precondition `overlap < chunk_size`). -/
def windowLoop (text : List Char) (chunkSize step start : Nat) : List (List Char) :=
  if _h : 0 < step ∧ start < text.length then
    let chunk := pyStrip (window text chunkSize start)
    let rest := windowLoop text chunkSize step (start + step)
    if chunk.isEmpty then rest else chunk :: rest
  else []
termination_by text.length - start
decreasing_by omega

theorem dp_windowLoop_unfold (text : List Char) (chunkSize step start : Nat) :
    windowLoop text chunkSize step start =
      if 0 < step ∧ start < text.length then
        (let chunk := pyStrip (window text chunkSize start)
         let rest := windowLoop text chunkSize step (start + step)
         if chunk.isEmpty then rest else chunk :: rest)
      else [] := by
  rw [windowLoop]
  split <;> rfl

/-- Embedding of `document_processor._split_into_chunks` (lines 65–85). -/
def split_into_chunks (text : List Char) (chunkSize overlap : Nat) : List (List Char) :=
  if text.isEmpty then []
  else windowLoop text chunkSize (chunkSize - overlap) 0

end DocumentProcessor

namespace PdfProcessor

/-- The `while start < len(text)` loop of
`pdf_processor._split_into_chunks` (lines 164–170); an independent copy of
the loop in `document_processor` (the source writes the slice as
`text[start : start + chunk_size]` directly instead of naming `end`). -/
def windowLoop (text : List Char) (chunkSize step start : Nat) : List (List Char) :=
  if _h : 0 < step ∧ start < text.length then
    let chunk := pyStrip (window text chunkSize start)
    let rest := windowLoop text chunkSize step (start + step)
    if chunk.isEmpty then rest else chunk :: rest
  else []
termination_by text.length - start
decreasing_by omega

theorem pp_windowLoop_unfold (text : List Char) (chunkSize step start : Nat) :
    windowLoop text chunkSize step start =
      if 0 < step ∧ start < text.length then
        (let chunk := pyStrip (window text chunkSize start)
         let rest := windowLoop text chunkSize step (start + step)
         if chunk.isEmpty then rest else chunk :: rest)
      else [] := by
  rw [windowLoop]
  split <;> rfl

/-- Embedding of `pdf_processor._split_into_chunks` (lines 152–170). -/
def split_into_chunks (text : List Char) (chunkSize overlap : Nat) : List (List Char) :=
  if text.isEmpty then []
  else windowLoop text chunkSize (chunkSize - overlap) 0

end PdfProcessor

/-- Fuel-indexed image of the chunker's `while` loop: `none` means the loop
has not finished within `fuel` iterations.  Used to state termination. -/
def windowLoopFuel (text : List Char) (chunkSize step : Nat) :
    Nat → Nat → Option (List (List Char))
  | fuel, start =>
    if start < text.length then
      match fuel with
      | 0 => none
      | fuel + 1 =>
        let chunk := pyStrip (window text chunkSize start)
        match windowLoopFuel text chunkSize step fuel (start + step) with
        | none => none
        | some rest => some (if chunk.isEmpty then rest else chunk :: rest)
    else some []

/-- Fuel-indexed `_split_into_chunks`. -/
def splitIntoChunksFuel (text : List Char) (chunkSize overlap fuel : Nat) :
    Option (List (List Char)) :=
  if text.isEmpty then some []
  else windowLoopFuel text chunkSize (chunkSize - overlap) fuel 0

theorem window_subset (text : List Char) (chunkSize start : Nat) :
    ∀ c ∈ window text chunkSize start, c ∈ text := by
  intro c hc
  exact List.drop_subset start text (List.take_subset chunkSize _ hc)

/-- The two independently written loops compute the same function. -/
theorem windowLoop_dp_eq_pp (text : List Char) (chunkSize step : Nat) :
    ∀ start, DocumentProcessor.windowLoop text chunkSize step start =
      PdfProcessor.windowLoop text chunkSize step start := by
  have key : ∀ n start, text.length - start ≤ n →
      DocumentProcessor.windowLoop text chunkSize step start =
        PdfProcessor.windowLoop text chunkSize step start := by
    intro n
    induction n with
    | zero =>
      intro start h
      rw [DocumentProcessor.dp_windowLoop_unfold, PdfProcessor.pp_windowLoop_unfold]
      have hng : ¬(0 < step ∧ start < text.length) := by omega
      simp [hng]
    | succ n ih =>
      intro start h
      rw [DocumentProcessor.dp_windowLoop_unfold, PdfProcessor.pp_windowLoop_unfold]
      by_cases hc : 0 < step ∧ start < text.length
      · simp only [hc, if_true]
        rw [ih (start + step) (by omega)]
      · simp [hc]
  intro start
  exact key (text.length - start) start (Nat.le_refl _)

theorem split_into_chunks_dp_eq_pp (text : List Char) (chunkSize overlap : Nat) :
    DocumentProcessor.split_into_chunks text chunkSize overlap =
      PdfProcessor.split_into_chunks text chunkSize overlap := by
  unfold DocumentProcessor.split_into_chunks PdfProcessor.split_into_chunks
  by_cases h : text.isEmpty
  · simp [h]
  · simp only [h, if_false]
    exact windowLoop_dp_eq_pp text chunkSize (chunkSize - overlap) 0

/-- With a positive step, `length text - start` iterations of fuel are
enough: the fuelled loop halts and agrees with the total loop. -/
theorem windowLoopFuel_spec (text : List Char) (chunkSize step : Nat) (hstep : 0 < step) :
    ∀ fuel start, text.length - start ≤ fuel →
      windowLoopFuel text chunkSize step fuel start =
        some (DocumentProcessor.windowLoop text chunkSize step start) := by
  intro fuel
  induction fuel with
  | zero =>
    intro start h
    rw [windowLoopFuel, DocumentProcessor.dp_windowLoop_unfold]
    have h1 : ¬ start < text.length := by omega
    simp [h1]
  | succ fuel ih =>
    intro start h
    rw [windowLoopFuel, DocumentProcessor.dp_windowLoop_unfold]
    by_cases h1 : start < text.length
    · rw [ih (start + step) (by omega)]
      simp [h1, hstep]
    · simp [h1]

/-- Every chunk the loop emits is a stripped window, hence no longer than
`chunkSize`. -/
theorem windowLoop_mem_length_le (text : List Char) (chunkSize step : Nat) :
    ∀ n start c, text.length - start ≤ n →
      c ∈ DocumentProcessor.windowLoop text chunkSize step start →
      c.length ≤ chunkSize := by
  intro n
  induction n with
  | zero =>
    intro start c h hc
    rw [DocumentProcessor.dp_windowLoop_unfold] at hc
    have hng : ¬(0 < step ∧ start < text.length) := by omega
    simp [hng] at hc
  | succ n ih =>
    intro start c h hc
    rw [DocumentProcessor.dp_windowLoop_unfold] at hc
    by_cases h1 : 0 < step ∧ start < text.length
    · simp only [h1, if_true] at hc
      have hchunk : (pyStrip (window text chunkSize start)).length ≤ chunkSize :=
        le_trans (pyStrip_length_le _) (List.length_take_le _ _)
      by_cases h2 : (pyStrip (window text chunkSize start)).isEmpty
      · simp only [h2, if_true] at hc
        exact ih (start + step) c (by omega) hc
      · simp only [h2, if_false] at hc
        rcases List.mem_cons.mp hc with h3 | h3
        · rw [h3]; exact hchunk
        · exact ih (start + step) c (by omega) h3
    · simp [h1] at hc

/-- On an all-whitespace text every window strips to empty, so the loop
emits nothing. -/
theorem windowLoop_all_space (text : List Char) (chunkSize step : Nat)
    (hall : ∀ c ∈ text, pyIsSpace c = true) :
    ∀ n start, text.length - start ≤ n →
      DocumentProcessor.windowLoop text chunkSize step start = [] := by
  intro n
  induction n with
  | zero =>
    intro start h
    rw [DocumentProcessor.dp_windowLoop_unfold]
    have hng : ¬(0 < step ∧ start < text.length) := by omega
    simp [hng]
  | succ n ih =>
    intro start h
    rw [DocumentProcessor.dp_windowLoop_unfold]
    by_cases h1 : 0 < step ∧ start < text.length
    · have hchunk : pyStrip (window text chunkSize start) = [] := by
        rw [pyStrip_eq_nil_iff]
        intro c hc
        exact hall c (window_subset text chunkSize start c hc)
      simp only [h1, if_true, hchunk, List.isEmpty_nil, if_true]
      exact ih (start + step) (by omega)
    · simp [h1]

/-- A text whose first character is not whitespace yields at least the
chunk of its first window. -/
theorem windowLoop_ne_nil_of_head (text : List Char) (chunkSize step : Nat)
    (hstep : 0 < step) (hcs : 0 < chunkSize) (c : Char) (t : List Char)
    (htext : text = c :: t) (hc : pyIsSpace c = false) :
    DocumentProcessor.windowLoop text chunkSize step 0 ≠ [] := by
  rw [DocumentProcessor.dp_windowLoop_unfold]
  have h1 : 0 < step ∧ 0 < text.length := by
    constructor
    · exact hstep
    · rw [htext]; simp
  have hmem : c ∈ window text chunkSize 0 := by
    rw [htext]
    unfold window
    rw [List.drop_zero]
    obtain ⟨k, hk⟩ := Nat.exists_eq_succ_of_ne_zero (Nat.pos_iff_ne_zero.mp hcs)
    rw [hk, List.take_succ_cons]
    exact List.mem_cons_self c _
  have hchunk : ¬ (pyStrip (window text chunkSize 0)).isEmpty := by
    rw [List.isEmpty_iff, pyStrip_eq_nil_iff]
    intro hallsp
    have h2 := hallsp c hmem
    rw [hc] at h2
    exact Bool.noConfusion h2
  simp only [h1, if_true, Bool.not_eq_true] at hchunk ⊢
  simp [hchunk]

/-! ## Decimal rendering and the per-chunk identifier scheme -/

/-- The character of a decimal digit (`48` is the codepoint of `0`). -/
def digitChar (d : Nat) : Char := Char.ofNat (48 + d)

/-- Python `str(i)` for a natural number, as interpolated by the f-string
`f"{document_id}_chunk_{i}"` in `vector_store.store_document`. -/
def natDecimal (n : Nat) : List Char :=
  if n = 0 then [digitChar 0]
  else ((Nat.digits 10 n).map digitChar).reverse

theorem digitChar_toNat (d : Nat) (h : d < 10) : (digitChar d).toNat = 48 + d := by
  interval_cases d <;> decide

theorem natDecimal_ne_nil (n : Nat) : natDecimal n ≠ [] := by
  unfold natDecimal
  by_cases h : n = 0
  · simp [h]
  · simp only [h, if_false, ne_eq, List.reverse_eq_nil_iff, List.map_eq_nil_iff]
    intro hd
    exact h (by rw [← Nat.ofDigits_digits 10 n, hd]; simp [Nat.ofDigits])

theorem natDecimal_mem_digit (n : Nat) :
    ∀ c ∈ natDecimal n, 48 ≤ c.toNat ∧ c.toNat ≤ 57 := by
  intro c hc
  unfold natDecimal at hc
  by_cases h : n = 0
  · simp [h] at hc
    rw [hc]
    constructor <;> decide
  · simp only [h, if_false, List.mem_reverse, List.mem_map] at hc
    obtain ⟨d, hd, hdc⟩ := hc
    have hlt : d < 10 := Nat.digits_lt_base (by norm_num) hd
    rw [← hdc, digitChar_toNat d hlt]
    omega

theorem map_digitChar_inj :
    ∀ (l1 l2 : List Nat), (∀ x ∈ l1, x < 10) → (∀ x ∈ l2, x < 10) →
      l1.map digitChar = l2.map digitChar → l1 = l2 := by
  intro l1
  induction l1 with
  | nil =>
    intro l2 _ _ h
    cases l2 with
    | nil => rfl
    | cons b t => simp at h
  | cons a t ih =>
    intro l2 h1 h2 h
    cases l2 with
    | nil => simp at h
    | cons b t2 =>
      simp only [List.map_cons, List.cons.injEq] at h
      have ha : a < 10 := h1 a (List.mem_cons_self a t)
      have hb : b < 10 := h2 b (List.mem_cons_self b t2)
      have hab : a = b := by
        have := congrArg Char.toNat h.1
        rw [digitChar_toNat a ha, digitChar_toNat b hb] at this
        omega
      have ht : t = t2 := ih t2 (fun x hx => h1 x (List.mem_cons_of_mem a hx))
        (fun x hx => h2 x (List.mem_cons_of_mem b hx)) h.2
      rw [hab, ht]

theorem digits_map_eq_single_zero (b : Nat) (hb : b ≠ 0)
    (h : (Nat.digits 10 b).map digitChar = [digitChar 0]) : False := by
  cases hd : Nat.digits 10 b with
  | nil => rw [hd] at h; simp at h
  | cons d t =>
    rw [hd] at h
    simp only [List.map_cons, List.cons.injEq] at h
    obtain ⟨h1, h2⟩ := h
    have hdlt : d < 10 := Nat.digits_lt_base (by norm_num) (hd ▸ List.mem_cons_self d t)
    have hd0 : d = 0 := by
      have h3 := congrArg Char.toNat h1
      rw [digitChar_toNat d hdlt, digitChar_toNat 0 (by norm_num)] at h3
      omega
    have ht : t = [] := List.map_eq_nil_iff.mp h2
    apply hb
    rw [← Nat.ofDigits_digits 10 b, hd, hd0, ht]
    simp [Nat.ofDigits]

theorem natDecimal_inj (a b : Nat) (h : natDecimal a = natDecimal b) : a = b := by
  unfold natDecimal at h
  by_cases ha : a = 0 <;> by_cases hb : b = 0
  · rw [ha, hb]
  · exfalso
    simp only [ha, if_true, hb, if_false] at h
    have h2 := congrArg List.reverse h
    rw [List.reverse_reverse, List.reverse_singleton] at h2
    exact digits_map_eq_single_zero b hb h2.symm
  · exfalso
    simp only [ha, if_false, hb, if_true] at h
    have h2 := congrArg List.reverse h
    rw [List.reverse_reverse, List.reverse_singleton] at h2
    exact digits_map_eq_single_zero a ha h2
  · simp only [ha, if_false, hb] at h
    have h2 := List.reverse_injective h
    have h3 := map_digitChar_inj (Nat.digits 10 a) (Nat.digits 10 b)
      (fun x hx => Nat.digits_lt_base (by norm_num) hx)
      (fun x hx => Nat.digits_lt_base (by norm_num) hx) h2
    rw [← Nat.ofDigits_digits 10 a, ← Nat.ofDigits_digits 10 b, h3]

/-- The literal `"_chunk_"` between the document id and the index. -/
def chunkSep : List Char := '_' :: 'c' :: 'h' :: 'u' :: 'n' :: 'k' :: '_' :: []

/-- The stable per-chunk id `f"{document_id}_chunk_{i}"` built by
`vector_store.store_document` (line 57). -/
def chunkId (document_id : List Char) (i : Nat) : List Char :=
  document_id ++ (chunkSep ++ natDecimal i)

/-- A word of shape `"_chunk_" ++ digits` cannot also be written `w ++ "_chunk_" ++ digits`
for a non-empty `w`: the separator's final underscore would have to sit on
a decimal digit. -/
theorem chunkSep_no_shift (w r1 r2 : List Char) (hw : w ≠ [])
    (hr1 : ∀ c ∈ r1, 48 ≤ c.toNat ∧ c.toNat ≤ 57)
    (h : chunkSep ++ r1 = w ++ (chunkSep ++ r2)) : False := by
  have hwlen : 0 < w.length := List.length_pos.mpr hw
  have hlen : 7 + r1.length = w.length + (7 + r2.length) := by
    have h1 := congrArg List.length h
    simp only [List.length_append] at h1
    have h2 : chunkSep.length = 7 := rfl
    omega
  have hrhs : (w ++ (chunkSep ++ r2))[w.length + 6]? = some '_' := by
    rw [List.getElem?_append_right (by omega)]
    have h1 : w.length + 6 - w.length = 6 := by omega
    rw [h1, List.getElem?_append]
    have h2 : (6:Nat) < chunkSep.length := by decide
    rw [if_pos h2]
    rfl
  have hlhs : (chunkSep ++ r1)[w.length + 6]? = r1[w.length - 1]? := by
    rw [List.getElem?_append_right (by
      have h2 : chunkSep.length = 7 := rfl
      omega)]
    have h2 : chunkSep.length = 7 := rfl
    rw [h2]
    have h3 : w.length + 6 - 7 = w.length - 1 := by omega
    rw [h3]
  rw [h, hrhs] at hlhs
  have hmem : '_' ∈ r1 := by
    obtain ⟨hn, he⟩ := List.getElem?_eq_some.mp hlhs.symm
    exact he ▸ List.getElem_mem hn
  have := hr1 '_' hmem
  have h3 : ('_').toNat = 95 := by decide
  omega

/-- The id scheme is injective: an id determines `(document_id, index)`. -/
theorem chunkId_inj (d1 : List Char) (i1 : Nat) (d2 : List Char) (i2 : Nat)
    (h : chunkId d1 i1 = chunkId d2 i2) : d1 = d2 ∧ i1 = i2 := by
  unfold chunkId at h
  rcases Nat.lt_trichotomy d1.length d2.length with hlt | heq | hgt
  · exfalso
    have htake := congrArg (List.take d1.length) h
    rw [List.take_left, List.take_append_of_le_length (Nat.le_of_lt hlt)] at htake
    have hsplit : d2 = d1 ++ d2.drop d1.length := by
      conv_lhs => rw [← List.take_append_drop d1.length d2]
      rw [← htake]
    have hwne : d2.drop d1.length ≠ [] := by
      apply List.ne_nil_of_length_pos
      rw [List.length_drop]
      omega
    rw [hsplit, List.append_assoc] at h
    have hcancel := List.append_cancel_left h
    exact chunkSep_no_shift (d2.drop d1.length) (natDecimal i1) (natDecimal i2)
      hwne (natDecimal_mem_digit i1) hcancel
  · obtain ⟨hd, hr⟩ := List.append_inj h heq
    have hr2 := List.append_cancel_left hr
    exact ⟨hd, natDecimal_inj i1 i2 hr2⟩
  · exfalso
    have h' := h.symm
    have htake := congrArg (List.take d2.length) h'
    rw [List.take_left, List.take_append_of_le_length (Nat.le_of_lt hgt)] at htake
    have hsplit : d1 = d2 ++ d1.drop d2.length := by
      conv_lhs => rw [← List.take_append_drop d2.length d1]
      rw [← htake]
    have hwne : d1.drop d2.length ≠ [] := by
      apply List.ne_nil_of_length_pos
      rw [List.length_drop]
      omega
    rw [hsplit, List.append_assoc] at h'
    have hcancel := List.append_cancel_left h'
    exact chunkSep_no_shift (d1.drop d2.length) (natDecimal i2) (natDecimal i1)
      hwne (natDecimal_mem_digit i2) hcancel

/-! ## Vector store (`vector_store.py`) -/

/-- Metadata record attached to each stored chunk
(`store_document`, lines 58–65). -/
structure ChunkMeta where
  document_id : List Char
  chunk_text : List Char
  chunk_index : Nat
  timestamp : List Char
deriving DecidableEq

/-- One persisted record: embedding vector, document text, metadata.  The
embedding payload is opaque to every claim about this module, so the store
is polymorphic in the embedding type `E` (Python's float vectors are never
inspected by `vector_store.py`). -/
structure StoredRecord (E : Type) where
  embedding : E
  document : List Char
  metadata : ChunkMeta
deriving DecidableEq

/-- The ChromaDB collection, modelled from the spec's storage-layer
boundary (§6): a persistent key-value store keyed by string id.  ChromaDB
itself is an external dependency, outside the repository. -/
abbrev Collection (E : Type) : Type := List (List Char × StoredRecord E)

/-- Model of `_collection.count()`. -/
def collectionCount {E : Type} (c : Collection E) : Nat := c.length

/-- Upsert of one (id, record) pair: any record already stored under the
same id is replaced, never duplicated. -/
def upsertOne {E : Type} (c : Collection E) (key : List Char)
    (r : StoredRecord E) : Collection E :=
  (key, r) :: c.filter (fun p => decide (p.1 ≠ key))

/-- Model of `_collection.add(ids, embeddings, documents, metadatas)` — modelled from
the spec's contract for the store (batch upsert by id, spec §4.4/§6). -/
def collectionAdd {E : Type} (c : Collection E)
    (entries : List (List Char × StoredRecord E)) : Collection E :=
  entries.foldl (fun acc e => upsertOne acc e.1 e.2) c

/-- The ids built by the `for i, chunk_text in enumerate(chunks)` loop in
`store_document` (lines 56–57). -/
def storeIds (document_id : List Char) (chunks : List (List Char)) :
    List (List Char) :=
  (List.range chunks.length).map (fun i => chunkId document_id i)

/-- The metadata records built by the same loop (lines 58–65); `now` is the
single `datetime.now(timezone.utc).isoformat()` captured at line 51 and
shared by every chunk of the call. -/
def storeMetadatas (document_id now : List Char) (chunks : List (List Char)) :
    List ChunkMeta :=
  chunks.enum.map (fun p => ⟨document_id, p.2, p.1, now⟩)

/-- The parallel lists handed to `_collection.add`, zipped into entries. -/
def zipEntries {E : Type} (ids : List (List Char)) (embeddings : List E)
    (documents : List (List Char)) (metadatas : List ChunkMeta) :
    List (List Char × StoredRecord E) :=
  (ids.zip (embeddings.zip (documents.zip metadatas))).map
    (fun p => (p.1, ⟨p.2.1, p.2.2.1, p.2.2.2⟩))

/-- Embedding of `vector_store.store_document` (lines 31–77), with the module-global
collection and the wall clock passed explicitly. -/
def store_document {E : Type} (c : Collection E) (now : List Char)
    (document_id : List Char) (chunks : List (List Char))
    (embeddings : List E) : Collection E :=
  if chunks.isEmpty then c
  else
    collectionAdd c
      (zipEntries (storeIds document_id chunks) embeddings chunks
        (storeMetadatas document_id now chunks))

/-- Number of records stored under a given id. -/
def occ {E : Type} (key : List Char) (c : Collection E) : Nat :=
  c.countP (fun p => decide (p.1 = key))

theorem occ_upsertOne {E : Type} (c : Collection E) (key key0 : List Char)
    (r : StoredRecord E) :
    occ key (upsertOne c key0 r) = if key = key0 then 1 else occ key c := by
  unfold occ upsertOne
  rw [List.countP_cons, List.countP_filter]
  by_cases hk : key = key0
  · subst hk
    simp only [decide_eq_true_eq]
    have hz : (c.countP fun a => decide (a.1 = key) && decide (a.1 ≠ key)) = 0 := by
      rw [List.countP_eq_length_filter]
      have : (c.filter fun a => decide (a.1 = key) && decide (a.1 ≠ key)) = [] := by
        apply List.filter_eq_nil_iff.mpr
        intro a _
        by_cases h : a.1 = key <;> simp [h]
      rw [this]
      rfl
    rw [hz]
    simp
  · have hcong : (c.countP fun a => decide (a.1 = key) && decide (a.1 ≠ key0)) =
        c.countP fun a => decide (a.1 = key) := by
      apply List.countP_congr
      intro a _
      by_cases h : a.1 = key
      · simp [h, hk]
      · simp [h]
    rw [hcong]
    simp [hk, Ne.symm hk]

theorem length_upsertOne_of_occ_one {E : Type} (c : Collection E)
    (key0 : List Char) (r : StoredRecord E) (h : occ key0 c = 1) :
    (upsertOne c key0 r).length = c.length := by
  unfold upsertOne
  rw [List.length_cons]
  have hsplit := List.length_eq_countP_add_countP (fun p => decide (p.1 = key0)) c
  have hfilter : (c.filter fun p => decide (p.1 ≠ key0)).length =
      c.countP fun p => decide (p.1 ≠ key0) := by
    rw [List.countP_eq_length_filter]
  have hcong : (c.countP fun p => decide (p.1 ≠ key0)) =
      c.countP fun a => decide ¬(decide (a.1 = key0) = true) := by
    apply List.countP_congr
    intro a _
    by_cases h2 : a.1 = key0 <;> simp [h2]
  unfold occ at h
  rw [hfilter, hcong]
  omega

theorem occ_collectionAdd_not_mem {E : Type} (entries : List (List Char × StoredRecord E)) :
    ∀ (c : Collection E) (key : List Char), key ∉ entries.map Prod.fst →
      occ key (collectionAdd c entries) = occ key c := by
  induction entries with
  | nil => intro c key _; rfl
  | cons e t ih =>
    intro c key hk
    rw [List.map_cons, List.mem_cons] at hk
    push_neg at hk
    unfold collectionAdd
    rw [List.foldl_cons]
    have h1 := ih (upsertOne c e.1 e.2) key hk.2
    unfold collectionAdd at h1
    rw [h1, occ_upsertOne]
    simp [hk.1]

theorem occ_collectionAdd_mem {E : Type} (entries : List (List Char × StoredRecord E)) :
    ∀ (c : Collection E) (key : List Char), (entries.map Prod.fst).Nodup →
      key ∈ entries.map Prod.fst → occ key (collectionAdd c entries) = 1 := by
  induction entries with
  | nil => intro c key _ hk; simp at hk
  | cons e t ih =>
    intro c key hnd hk
    rw [List.map_cons] at hnd hk
    have hnd2 := List.nodup_cons.mp hnd
    unfold collectionAdd
    rw [List.foldl_cons]
    rcases List.mem_cons.mp hk with h1 | h1
    · have h2 := occ_collectionAdd_not_mem t (upsertOne c e.1 e.2) key (h1 ▸ hnd2.1)
      unfold collectionAdd at h2
      rw [h2, occ_upsertOne]
      simp [h1]
    · exact ih (upsertOne c e.1 e.2) key hnd2.2 h1

theorem length_collectionAdd_of_all_occ_one {E : Type}
    (entries : List (List Char × StoredRecord E)) :
    ∀ (c : Collection E), (entries.map Prod.fst).Nodup →
      (∀ e ∈ entries, occ e.1 c = 1) →
      (collectionAdd c entries).length = c.length := by
  induction entries with
  | nil => intro c _ _; rfl
  | cons e t ih =>
    intro c hnd hocc
    rw [List.map_cons] at hnd
    have hnd2 := List.nodup_cons.mp hnd
    unfold collectionAdd
    rw [List.foldl_cons]
    have htail : ∀ e2 ∈ t, occ e2.1 (upsertOne c e.1 e.2) = 1 := by
      intro e2 he2
      rw [occ_upsertOne]
      have hne : e2.1 ≠ e.1 := by
        intro hcontra
        exact hnd2.1 (hcontra ▸ List.mem_map_of_mem Prod.fst he2)
      simp only [hne, if_false]
      exact hocc e2 (List.mem_cons_of_mem e he2)
    have h1 := ih (upsertOne c e.1 e.2) hnd2.2 htail
    unfold collectionAdd at h1
    rw [h1]
    exact length_upsertOne_of_occ_one c e.1 e.2 (hocc e (List.mem_cons_self e t))

theorem storeIds_length (document_id : List Char) (chunks : List (List Char)) :
    (storeIds document_id chunks).length = chunks.length := by
  unfold storeIds
  rw [List.length_map, List.length_range]

theorem storeIds_nodup (document_id : List Char) (chunks : List (List Char)) :
    (storeIds document_id chunks).Nodup := by
  unfold storeIds
  apply List.Nodup.map
  · intro i j hij
    exact (chunkId_inj document_id i document_id j hij).2
  · exact List.nodup_range chunks.length

theorem storeMetadatas_length (document_id now : List Char)
    (chunks : List (List Char)) :
    (storeMetadatas document_id now chunks).length = chunks.length := by
  unfold storeMetadatas
  rw [List.length_map, List.enum_length]

/-- The ids of the batch handed to the store are exactly `storeIds`. -/
theorem zipEntries_map_fst {E : Type} (document_id now : List Char)
    (chunks : List (List Char)) (embeddings : List E)
    (hlen : embeddings.length = chunks.length) :
    ((zipEntries (storeIds document_id chunks) embeddings chunks
        (storeMetadatas document_id now chunks)).map Prod.fst) =
      storeIds document_id chunks := by
  unfold zipEntries
  rw [List.map_map]
  have h1 : (Prod.fst ∘ fun p : List Char × (E × (List Char × ChunkMeta)) =>
      ((p.1, ⟨p.2.1, p.2.2.1, p.2.2.2⟩) : List Char × StoredRecord E)) = Prod.fst := rfl
  rw [h1]
  apply List.map_fst_zip
  rw [List.length_zip, List.length_zip, storeIds_length, hlen,
    storeMetadatas_length]
  omega

/-! ## Extraction orchestrators (`pdf_processor.py`, `document_processor.py`) -/

/-- Python exception values, distinguished exactly as far as
`process_pdf`'s handlers do: `except RuntimeError` catches `runtimeError`
and nothing else; every other exception class is `otherError`. -/
inductive PyExc
  | runtimeError
  | otherError
deriving DecidableEq

/-- Python `"\n".join(parts)`. -/
def joinNewline (parts : List (List Char)) : List Char :=
  List.intercalate ['\n'] parts

/-- Python `" ".join(parts)`. -/
def joinSpace (parts : List (List Char)) : List Char :=
  List.intercalate [' '] parts

/-- Embedding of `pdf_processor._extract_text_native` (lines 57–68); the per-page
results of `page.extract_text() or ""` are supplied as an oracle list.
Pages whose stripped text is empty are skipped; the page's original
(unstripped) text is what gets joined. -/
def extract_text_native (pages : List (List Char)) : List Char :=
  normalizeWs (joinNewline (pages.filter (fun t => !(pyStrip t).isEmpty)))

/-- Embedding of `pdf_processor._extract_text_ocr` (lines 75–96); the per-page
`pytesseract.image_to_string` outputs are supplied as an oracle list.
Each page's text is stripped and kept only if non-empty. -/
def extract_text_ocr (pages : List (List Char)) : List Char :=
  normalizeWs (joinNewline ((pages.map pyStrip).filter (fun t => !t.isEmpty)))

/-- One page of `reader.pages` as stage 3 sees it: `page.images` either
raises (any exception — swallowed by `except Exception: continue`) or
yields a list of embedded images, each of whose decode-and-OCR pipeline
(`Image.open … image_to_string`) either raises (any exception — swallowed
by the per-image `except Exception`) or yields an OCR string. -/
abbrev ImagePage := Except PyExc (List (Except PyExc (List Char)))

/-- Embedding of `pdf_processor._extract_images_text` (lines 103–145). -/
def extract_images_text (pages : List ImagePage) : List Char :=
  let image_texts := pages.foldl (fun acc page =>
    match page with
    | Except.error _ => acc
    | Except.ok imgs => imgs.foldl (fun acc2 img =>
        match img with
        | Except.error _ => acc2
        | Except.ok t =>
          let text := pyStrip t
          if text.isEmpty then acc2 else acc2 ++ [text]) acc) []
  normalizeWs (joinNewline image_texts)

/-- Test whether a call returned rather than raised. -/
def exceptOk {ε α : Type} : Except ε α → Bool
  | Except.ok _ => true
  | Except.error _ => false

/-- The combine-and-chunk tail of `process_pdf` (lines 232–244). -/
def combineAndChunk (parts : List (List Char)) : List (List Char) :=
  let combined := normalizeWs (joinSpace parts)
  if combined.isEmpty then []
  else PdfProcessor.split_into_chunks combined 500 50

/-- Embedding of `pdf_processor.process_pdf` (lines 177–244).  External behaviour is
supplied by oracles:
* `native` — the stage-1 `page.extract_text()` calls; an exception there
  propagates, since stage 1 is not wrapped in any handler;
* `ocr` — the `pdf2image`/`pytesseract` call chain of stage 2, whose
  surrounding handler is `except RuntimeError` only;
* `imgPages` — stage 3 per-page / per-image outcomes, all swallowed inside
  `_extract_images_text` itself (the `except RuntimeError` around the
  stage-3 call can never fire in this model since the function, having
  caught everything internally, raises nothing). -/
def process_pdf (native : Except PyExc (List (List Char)))
    (ocr : Except PyExc (List (List Char)))
    (imgPages : List ImagePage) : Except PyExc (List (List Char)) :=
  match native with
  | Except.error e => Except.error e
  | Except.ok nativePages =>
    let native_text := extract_text_native nativePages
    let parts1 : List (List Char) :=
      if native_text.isEmpty then [] else [native_text]
    match ocr with
    | Except.error PyExc.runtimeError =>
      let img_text := extract_images_text imgPages
      let parts3 := parts1 ++ (if img_text.isEmpty then [] else [img_text])
      Except.ok (combineAndChunk parts3)
    | Except.error PyExc.otherError => Except.error PyExc.otherError
    | Except.ok ocrPages =>
      let ocr_text := extract_text_ocr ocrPages
      let parts2 := parts1 ++ (if ocr_text.isEmpty then [] else [ocr_text])
      let img_text := extract_images_text imgPages
      let parts3 := parts2 ++ (if img_text.isEmpty then [] else [img_text])
      Except.ok (combineAndChunk parts3)

/-- Model of `file_ext.lower()` (ASCII). -/
def pyLower (s : List Char) : List Char := s.map Char.toLower

/-- The set `_SUPPORTED_EXTENSIONS = {".pdf", ".docx", ".pptx"}`. -/
def supportedExtensions : List (List Char) :=
  [".pdf".data, ".docx".data, ".pptx".data]

/-- The `ValueError` message of `process_document` (lines 109–112):
`f"Unsupported file type '{ext}'. Supported types: {', '.join(sorted(_SUPPORTED_EXTENSIONS))}"`
(39 is the codepoint of the single-quote character;
`sorted` yields `.docx, .pdf, .pptx`). -/
def unsupportedMsg (ext : List Char) : List Char :=
  "Unsupported file type ".data ++ [Char.ofNat 39] ++ ext ++ [Char.ofNat 39] ++
    ". Supported types: .docx, .pdf, .pptx".data

/-- The normalise-then-chunk tail of `process_document` (lines 124–137),
applied to the raw extracted text. -/
def processText (raw : List Char) : List (List Char) :=
  let clean := normalizeWs raw
  if clean.isEmpty then []
  else DocumentProcessor.split_into_chunks clean 500 50

/-- Embedding of `document_processor.process_document` (lines 90–137).  The three format
extractors call external parser libraries; their would-be return values are
supplied as oracles, and a `ValueError` is the `Except.error` case. -/
def process_document (file_ext : List Char)
    (pdfRaw docxRaw pptxRaw : List Char) :
    Except (List Char) (List (List Char)) :=
  let ext := pyLower file_ext
  if ext ∈ supportedExtensions then
    let raw := if ext = ".pdf".data then pdfRaw
      else if ext = ".docx".data then docxRaw
      else pptxRaw
    Except.ok (processText raw)
  else Except.error (unsupportedMsg ext)

/-! ## Claim theorems -/

/-- C10: the two independently defined sliding-window chunkers,
`_split_into_chunks` in `document_processor.py` and `_split_into_chunks`
in `pdf_processor.py`, are extensionally equal: for every text, chunk_size
and overlap they return identical chunk lists. -/
theorem claim_chunkers_extensionally_equal (text : List Char)
    (chunkSize overlap : Nat) :
    DocumentProcessor.split_into_chunks text chunkSize overlap =
      PdfProcessor.split_into_chunks text chunkSize overlap :=
  split_into_chunks_dp_eq_pp text chunkSize overlap

/-- C4: under the precondition `0 ≤ overlap < chunk_size` (so
`step = chunk_size - overlap > 0`), the sliding-window chunker terminates
for every input text: the loop starting at offset 0 and advancing by
`step` finishes within `length text` iterations (each iteration strictly
increases `start`, and the loop stops once `start ≥ length text`),
returning the chunk list of the total function. -/
theorem claim_chunker_terminates (text : List Char) (chunkSize overlap : Nat)
    (h : overlap < chunkSize) :
    splitIntoChunksFuel text chunkSize overlap text.length =
      some (DocumentProcessor.split_into_chunks text chunkSize overlap) := by
  unfold splitIntoChunksFuel DocumentProcessor.split_into_chunks
  by_cases he : text.isEmpty
  · simp [he]
  · simp only [he, Bool.false_eq_true, if_false]
    exact windowLoopFuel_spec text chunkSize (chunkSize - overlap)
      (Nat.sub_pos_of_lt h) text.length 0 (by omega)

theorem claim_chunker_terminates_witness :
    splitIntoChunksFuel ('a' :: 'b' :: []) 2 1 ('a' :: 'b' :: []).length =
      some (DocumentProcessor.split_into_chunks ('a' :: 'b' :: []) 2 1) :=
  claim_chunker_terminates ('a' :: 'b' :: []) 2 1 (by decide)

/-- C3: for every text, chunk_size `C` and overlap `O` with `0 ≤ O < C`,
every chunk returned by the sliding-window chunker has length ≤ `C`, and
for windows at consecutive starts (`start` and `start + (C-O)`) that fall
within text bounds, the trailing `O` characters of the earlier window
equal the leading `O` characters of the later window (before whitespace
trimming), i.e. consecutive windows share exactly `O` characters. -/
theorem claim_chunk_length_and_overlap (text : List Char)
    (chunkSize overlap : Nat) (hO : overlap < chunkSize) :
    (∀ c ∈ DocumentProcessor.split_into_chunks text chunkSize overlap,
        c.length ≤ chunkSize) ∧
    (∀ start, start + chunkSize ≤ text.length →
        (window text chunkSize start).drop (chunkSize - overlap) =
          (window text chunkSize (start + (chunkSize - overlap))).take overlap) := by
  constructor
  · intro c hc
    unfold DocumentProcessor.split_into_chunks at hc
    by_cases he : text.isEmpty
    · simp [he] at hc
    · simp only [he, Bool.false_eq_true, if_false] at hc
      exact windowLoop_mem_length_le text chunkSize (chunkSize - overlap)
        text.length 0 c (by omega) hc
  · intro start _hbound
    unfold window
    rw [List.drop_take, List.drop_drop, List.take_take]
    have h1 : chunkSize - (chunkSize - overlap) = overlap := by omega
    have h2 : min overlap chunkSize = overlap := by omega
    rw [h1, h2]

theorem claim_chunk_length_and_overlap_witness :
    (window ('a' :: 'b' :: 'c' :: 'd' :: 'e' :: 'f' :: []) 3 1).drop 2 =
      (window ('a' :: 'b' :: 'c' :: 'd' :: 'e' :: 'f' :: []) 3 3).take 1 :=
  (claim_chunk_length_and_overlap ('a' :: 'b' :: 'c' :: 'd' :: 'e' :: 'f' :: [])
    3 1 (by decide)).2 1 (by decide)

/-- C8: for every chunk_size `C` and overlap `O` with `0 ≤ O < C`,
`chunk("", C, O) = []`, and `chunk(T, C, O) = []` for every text `T`
consisting entirely of whitespace: each pure-whitespace window strips to
empty and is silently dropped, not an error. -/
theorem claim_chunk_whitespace_empty (chunkSize overlap : Nat)
    (T : List Char) (_hO : overlap < chunkSize)
    (hT : ∀ c ∈ T, pyIsSpace c = true) :
    DocumentProcessor.split_into_chunks [] chunkSize overlap = [] ∧
    DocumentProcessor.split_into_chunks T chunkSize overlap = [] := by
  constructor
  · rfl
  · unfold DocumentProcessor.split_into_chunks
    by_cases he : T.isEmpty
    · simp [he]
    · simp only [he, Bool.false_eq_true, if_false]
      exact windowLoop_all_space T chunkSize (chunkSize - overlap) hT
        T.length 0 (by omega)

theorem claim_chunk_whitespace_empty_witness :
    DocumentProcessor.split_into_chunks [] 2 1 = [] ∧
    DocumentProcessor.split_into_chunks (' ' :: ' ' :: '\t' :: []) 2 1 = [] :=
  claim_chunk_whitespace_empty 2 1 (' ' :: ' ' :: '\t' :: []) (by decide) (by decide)

theorem processText_eq (raw : List Char) :
    processText raw = if (normalizeWs raw).isEmpty then []
      else DocumentProcessor.split_into_chunks (normalizeWs raw) 500 50 := rfl

theorem combineAndChunk_eq (parts : List (List Char)) :
    combineAndChunk parts = if (normalizeWs (joinSpace parts)).isEmpty then []
      else PdfProcessor.split_into_chunks (normalizeWs (joinSpace parts)) 500 50 := rfl

/-- C6: the orchestrators return an empty chunk list iff the combined,
whitespace-normalized extracted text is empty: when it is non-empty,
`process_document`'s tail (and `process_pdf`'s combine-and-chunk tail)
return at least one chunk, and when it is empty they return `[]` as a
recoverable condition rather than raising. -/
theorem claim_empty_chunks_iff_no_text :
    (∀ raw : List Char, processText raw = [] ↔ normalizeWs raw = []) ∧
    (∀ parts : List (List Char),
      combineAndChunk parts = [] ↔ normalizeWs (joinSpace parts) = []) := by
  constructor
  · intro raw
    rw [processText_eq]
    cases hc : normalizeWs raw with
    | nil => simp
    | cons c t =>
      simp only [List.isEmpty_cons, Bool.false_eq_true, if_false]
      constructor
      · intro h
        exfalso
        have hx : pyStrip (collapseWs raw) = c :: t := hc
        have hcs := pyStrip_head_not_space (collapseWs raw) c t hx
        have hne := windowLoop_ne_nil_of_head (c :: t) 500 (500 - 50)
          (by norm_num) (by norm_num) c t rfl hcs
        unfold DocumentProcessor.split_into_chunks at h
        simp only [List.isEmpty_cons, Bool.false_eq_true, if_false] at h
        exact hne h
      · intro h
        simp at h
  · intro parts
    rw [combineAndChunk_eq]
    cases hc : normalizeWs (joinSpace parts) with
    | nil => simp
    | cons c t =>
      simp only [List.isEmpty_cons, Bool.false_eq_true, if_false]
      constructor
      · intro h
        exfalso
        have hx : pyStrip (collapseWs (joinSpace parts)) = c :: t := hc
        have hcs := pyStrip_head_not_space (collapseWs (joinSpace parts)) c t hx
        have hne := windowLoop_ne_nil_of_head (c :: t) 500 (500 - 50)
          (by norm_num) (by norm_num) c t rfl hcs
        rw [← split_into_chunks_dp_eq_pp] at h
        unfold DocumentProcessor.split_into_chunks at h
        simp only [List.isEmpty_cons, Bool.false_eq_true, if_false] at h
        exact hne h
      · intro h
        simp at h

/-- C9: for every file path and every extension outside
`{.pdf, .docx, .pptx}` (compared case-insensitively via `lower()`),
`process_document` raises a `ValueError` identifying the unsupported type
before any extraction work begins — the result is the error message alone,
independent of whatever the extractors would have produced — and for every
extension inside that set it does not raise this error. -/
theorem claim_unsupported_extension_rejected (file_ext : List Char)
    (pdfRaw docxRaw pptxRaw : List Char) :
    (pyLower file_ext ∉ supportedExtensions →
      process_document file_ext pdfRaw docxRaw pptxRaw =
        Except.error (unsupportedMsg (pyLower file_ext))) ∧
    (pyLower file_ext ∈ supportedExtensions →
      exceptOk (process_document file_ext pdfRaw docxRaw pptxRaw) = true) := by
  constructor
  · intro h
    unfold process_document
    simp only [h, if_false]
  · intro h
    unfold process_document
    simp only [h, if_true]
    rfl

theorem claim_unsupported_extension_rejected_witness :
    process_document ('.' :: 'T' :: 'X' :: 'T' :: [])
        ('a' :: []) ('b' :: []) ('c' :: []) =
      Except.error (unsupportedMsg (pyLower ('.' :: 'T' :: 'X' :: 'T' :: []))) ∧
    exceptOk (process_document ('.' :: 'P' :: 'D' :: 'F' :: [])
        ('a' :: []) ('b' :: []) ('c' :: [])) = true :=
  ⟨(claim_unsupported_extension_rejected ('.' :: 'T' :: 'X' :: 'T' :: [])
      ('a' :: []) ('b' :: []) ('c' :: [])).1 (by decide),
   (claim_unsupported_extension_rejected ('.' :: 'P' :: 'D' :: 'F' :: [])
      ('a' :: []) ('b' :: []) ('c' :: [])).2 (by decide)⟩

/-- C2 counterexample: the claim "every exception raised inside any single
sub-stage is caught and logged, and `process_pdf` never aborts the whole
document" is false at a concrete input.  A stage-2 exception that is not a
`RuntimeError` (e.g. `pytesseract.TesseractNotFoundError`, an `OSError`
raised when the OCR engine is unavailable) escapes the `except
RuntimeError` handler and aborts `process_pdf`, even though stages 1 and 3
had no failure. -/
theorem claim_substage_exception_aborts_cx :
    exceptOk (process_pdf (Except.ok [])
      (Except.error PyExc.otherError) []) = false := rfl

/-- C2 amended: if stage 1 (`_extract_text_native`, which is not wrapped in
any handler) completes without raising, and the stage-2 exception (if any)
is a `RuntimeError` (the missing-dependency diagnostic from
`_import_pdf2image`, the only class its handler catches), then
`process_pdf` never aborts: every per-image or per-page exception inside
stage 3 is caught and logged, degrading only that image's contribution to
empty text, and the pipeline continues with the remaining stages. -/
theorem claim_substage_errors_isolated (nativePages : List (List Char))
    (ocr : Except PyExc (List (List Char))) (imgPages : List ImagePage)
    (hocr : ocr ≠ Except.error PyExc.otherError) :
    exceptOk (process_pdf (Except.ok nativePages) ocr imgPages) = true := by
  unfold process_pdf
  cases ocr with
  | ok o => rfl
  | error e =>
    cases e with
    | runtimeError => rfl
    | otherError => exact absurd rfl hocr

theorem claim_substage_errors_isolated_witness :
    exceptOk (process_pdf (Except.ok [('h' :: 'i' :: [])])
      (Except.error PyExc.runtimeError)
      [Except.error PyExc.otherError,
       Except.ok [Except.error PyExc.otherError, Except.ok ('o' :: 'k' :: [])]]) =
      true :=
  claim_substage_errors_isolated [('h' :: 'i' :: [])]
    (Except.error PyExc.runtimeError)
    [Except.error PyExc.otherError,
     Except.ok [Except.error PyExc.otherError, Except.ok ('o' :: 'k' :: [])]]
    (fun h => PyExc.noConfusion (Except.error.inj h))

/-- C5: for every document_id, chunk list and matching embedding list,
`store_document` builds for each index `i` the id
`"{document_id}_chunk_{i}"` and a metadata record containing the
document_id, the chunk's own text, its index, and the single ingestion
timestamp captured once and shared by all chunks of the call; and the id
uniquely determines the pair (document id, chunk index): two distinct
`(document_id, index)` pairs never produce the same id. -/
theorem claim_store_ids_metadata (document_id now : List Char)
    (chunks : List (List Char)) (i : Nat) (hi : i < chunks.length) :
    (storeIds document_id chunks)[i]? = some (chunkId document_id i) ∧
    (storeMetadatas document_id now chunks)[i]? =
      some ⟨document_id, chunks[i], i, now⟩ ∧
    (∀ d1 i1 d2 i2, chunkId d1 i1 = chunkId d2 i2 → d1 = d2 ∧ i1 = i2) := by
  refine ⟨?_, ?_, chunkId_inj⟩
  · unfold storeIds
    rw [List.getElem?_map, List.getElem?_range hi]
    rfl
  · unfold storeMetadatas
    rw [List.getElem?_map, List.getElem?_enum, List.getElem?_eq_getElem hi]
    rfl

theorem claim_store_ids_metadata_witness :
    (storeIds ('d' :: []) [('a' :: [])])[0]? = some (chunkId ('d' :: []) 0) :=
  (claim_store_ids_metadata ('d' :: []) ('t' :: []) [('a' :: [])] 0 (by decide)).1

/-- C1: calling `store(document_id, chunks, embeddings)` twice with
identical arguments leaves the store's total record count unchanged after
the second call: for every document_id, non-empty chunk list and matching
embedding list, re-using an id already present in the store overwrites
that id's record (upsert, not append) rather than duplicating it or
raising an error.  (The two calls may observe different wall-clock
timestamps `now1`, `now2`; the count is unchanged regardless.) -/
theorem claim_store_document_idempotent_count {E : Type} (c : Collection E)
    (now1 now2 document_id : List Char) (chunks : List (List Char))
    (embeddings : List E) (hne : chunks ≠ [])
    (hlen : embeddings.length = chunks.length) :
    collectionCount (store_document
        (store_document c now1 document_id chunks embeddings)
        now2 document_id chunks embeddings) =
      collectionCount (store_document c now1 document_id chunks embeddings) := by
  have hne2 : chunks.isEmpty = false := by
    cases chunks with
    | nil => exact absurd rfl hne
    | cons a t => rfl
  unfold store_document collectionCount
  simp only [hne2, Bool.false_eq_true, if_false]
  apply length_collectionAdd_of_all_occ_one
  · rw [zipEntries_map_fst document_id now2 chunks embeddings hlen]
    exact storeIds_nodup document_id chunks
  · intro e he
    have hkey : e.1 ∈ (zipEntries (storeIds document_id chunks) embeddings
        chunks (storeMetadatas document_id now1 chunks)).map Prod.fst := by
      rw [zipEntries_map_fst document_id now1 chunks embeddings hlen,
        ← zipEntries_map_fst document_id now2 chunks embeddings hlen]
      exact List.mem_map_of_mem Prod.fst he
    apply occ_collectionAdd_mem
    · rw [zipEntries_map_fst document_id now1 chunks embeddings hlen]
      exact storeIds_nodup document_id chunks
    · exact hkey

theorem claim_store_document_idempotent_count_witness :
    collectionCount (store_document
        (store_document ([] : Collection Nat) ('t' :: '1' :: [])
          ('d' :: []) [('a' :: [])] [0])
        ('t' :: '2' :: []) ('d' :: []) [('a' :: [])] [0]) =
      collectionCount (store_document ([] : Collection Nat)
        ('t' :: '1' :: []) ('d' :: []) [('a' :: [])] [0]) :=
  claim_store_document_idempotent_count ([] : Collection Nat)
    ('t' :: '1' :: []) ('t' :: '2' :: []) ('d' :: []) [('a' :: [])] [0]
    (by decide) rfl

/-- C7: for every 1200-character text whose windows carry no whitespace
that trimming would remove at their boundaries (each window is its own
strip), `chunk(text, 500, 50)` yields exactly the three windows at starts
0, 450, 900 — i.e. exactly 3 chunks — and the last chunk is 300 < 500
characters long. -/
theorem claim_three_chunks_of_1200 (text : List Char)
    (hlen : text.length = 1200)
    (h0 : pyStrip (window text 500 0) = window text 500 0)
    (h450 : pyStrip (window text 500 450) = window text 500 450)
    (h900 : pyStrip (window text 500 900) = window text 500 900) :
    DocumentProcessor.split_into_chunks text 500 50 =
      [window text 500 0, window text 500 450, window text 500 900] ∧
    (window text 500 900).length < 500 := by
  have hw0 : (window text 500 0).length = 500 := by
    unfold window
    rw [List.length_take, List.length_drop, hlen]
    omega
  have hw450 : (window text 500 450).length = 500 := by
    unfold window
    rw [List.length_take, List.length_drop, hlen]
    omega
  have hw900 : (window text 500 900).length = 300 := by
    unfold window
    rw [List.length_take, List.length_drop, hlen]
    omega
  have he0 : (window text 500 0).isEmpty = false := by
    cases hwc : window text 500 0 with
    | nil => rw [hwc] at hw0; simp at hw0
    | cons a t => rfl
  have he450 : (window text 500 450).isEmpty = false := by
    cases hwc : window text 500 450 with
    | nil => rw [hwc] at hw450; simp at hw450
    | cons a t => rfl
  have he900 : (window text 500 900).isEmpty = false := by
    cases hwc : window text 500 900 with
    | nil => rw [hwc] at hw900; simp at hw900
    | cons a t => rfl
  have l3 : DocumentProcessor.windowLoop text 500 450 1350 = [] := by
    rw [DocumentProcessor.dp_windowLoop_unfold]
    have hng : ¬(0 < 450 ∧ 1350 < text.length) := by omega
    rw [if_neg hng]
  have l2 : DocumentProcessor.windowLoop text 500 450 900 =
      [window text 500 900] := by
    rw [DocumentProcessor.dp_windowLoop_unfold]
    have hcond : 0 < 450 ∧ 900 < text.length := by omega
    rw [if_pos hcond]
    simp only [h900, he900, Bool.false_eq_true, if_false]
    norm_num [l3]
  have l1 : DocumentProcessor.windowLoop text 500 450 450 =
      [window text 500 450, window text 500 900] := by
    rw [DocumentProcessor.dp_windowLoop_unfold]
    have hcond : 0 < 450 ∧ 450 < text.length := by omega
    rw [if_pos hcond]
    simp only [h450, he450, Bool.false_eq_true, if_false]
    norm_num [l2]
  have l0 : DocumentProcessor.windowLoop text 500 450 0 =
      [window text 500 0, window text 500 450, window text 500 900] := by
    rw [DocumentProcessor.dp_windowLoop_unfold]
    have hcond : 0 < 450 ∧ 0 < text.length := by omega
    rw [if_pos hcond]
    simp only [h0, he0, Bool.false_eq_true, if_false]
    norm_num [l1]
  constructor
  · have hte : text.isEmpty = false := by
      cases text with
      | nil => simp at hlen
      | cons a t => rfl
    unfold DocumentProcessor.split_into_chunks
    simp only [hte, Bool.false_eq_true, if_false]
    show DocumentProcessor.windowLoop text 500 450 0 = _
    exact l0
  · omega

theorem dropWhile_replicate_false {α : Type} (p : α → Bool) (a : α)
    (h : p a = false) (n : Nat) :
    (List.replicate n a).dropWhile p = List.replicate n a := by
  cases n with
  | zero => rfl
  | succ n =>
    rw [List.replicate_succ, List.dropWhile_cons]
    simp [h]

theorem pyStrip_replicate_a (n : Nat) :
    pyStrip (List.replicate n 'a') = List.replicate n 'a' := by
  unfold pyStrip
  rw [dropWhile_replicate_false pyIsSpace 'a' (by decide), List.reverse_replicate,
    dropWhile_replicate_false pyIsSpace 'a' (by decide), List.reverse_replicate]

theorem window_replicate_a (total chunkSize start : Nat) :
    window (List.replicate total 'a') chunkSize start =
      List.replicate (min chunkSize (total - start)) 'a' := by
  unfold window
  rw [List.drop_replicate, List.take_replicate]

theorem claim_three_chunks_of_1200_witness :
    DocumentProcessor.split_into_chunks (List.replicate 1200 'a') 500 50 =
      [window (List.replicate 1200 'a') 500 0,
       window (List.replicate 1200 'a') 500 450,
       window (List.replicate 1200 'a') 500 900] ∧
    (window (List.replicate 1200 'a') 500 900).length < 500 :=
  claim_three_chunks_of_1200 (List.replicate 1200 'a')
    (List.length_replicate 1200 'a')
    (by rw [window_replicate_a]; exact pyStrip_replicate_a _)
    (by rw [window_replicate_a]; exact pyStrip_replicate_a _)
    (by rw [window_replicate_a]; exact pyStrip_replicate_a _)
